import Mathlib

/-!
Verification of the output-classification, artifact-cache, diagnostics and
session-coordination logic of an esbuild TypeScript plugin.

The embedding models:
* `src/outputFile.ts`: the output-file classifiers (`isCodeOutputFile`,
  `isMapOutputFile`, `isTypeScriptMapOutputFile`, `isDeclarationOutputFile`),
  `getEmittedFile`, the classification step of `findTypescriptOutput`, and
  `normalizePath`;
* `src/index.ts`: the plugin factory's source-map option rewrite, the
  `writeFile` hook, the `onStart` create-or-wake branch, the `onLoad`
  file-discovery and diagnostic-delivery logic, and the `onEnd` enumeration
  of declaration and TypeScript-map outputs;
* the watch coordinator (`WatchProgramHelper`), modelled from the spec since
  `watchProgram.ts` is not among the provided sources.

Strings are modelled by Lean `String`; JS `Map<string, string>` by
`String → Option String` (`Map.get` returning `undefined` is `none`);
suffix tests are computed on the character list so that they evaluate.
-/

namespace ESBPluginTS

/-- Suffix test on strings, computed on the underlying character lists.
Models JavaScript `String.prototype.endsWith`. -/
def endsWithStr (s suffix : String) : Bool :=
  suffix.data.isSuffixOf s.data

/-- From `src/outputFile.ts`: `isMapOutputFile(name) = name.endsWith('.map')`. -/
def isMapOutputFile (name : String) : Bool :=
  endsWithStr name ".map"

/-- From `src/outputFile.ts`:
`isTypeScriptMapOutputFile(name) = name.endsWith('ts.map')`. -/
def isTypeScriptMapOutputFile (name : String) : Bool :=
  endsWithStr name "ts.map"

/-- From `src/outputFile.ts`: `isDeclarationOutputFile(name)` tests the anchored
regular expression `\.d\.[cm]?ts$`, i.e. the name ends in `.d.ts`, `.d.cts`
or `.d.mts`. -/
def isDeclarationOutputFile (name : String) : Bool :=
  endsWithStr name ".d.ts" || endsWithStr name ".d.cts" || endsWithStr name ".d.mts"

/-- From `src/outputFile.ts`:
`isCodeOutputFile(name) = !isMapOutputFile(name) && !isDeclarationOutputFile(name)`. -/
def isCodeOutputFile (name : String) : Bool :=
  !isMapOutputFile name && !isDeclarationOutputFile name

/-- The classification computed by `findTypescriptOutput` in
`src/outputFile.ts`, separated from content lookup: `codeFile` is the first
candidate satisfying `isCodeOutputFile`, `mapFile` the first satisfying
`isMapOutputFile`, and `declarations` all candidates that are neither the
found `codeFile` nor the found `mapFile`
(`emittedFileNames.filter((name) => name !== codeFile && name !== mapFile)`). -/
structure OutputClassification where
  codeFile : Option String
  mapFile : Option String
  declarations : List String
deriving DecidableEq

/-- The name-classification step of `findTypescriptOutput`
(`src/outputFile.ts`, lines 81-94) applied to the candidate list returned by
`ts.getOutputFileNames`. -/
def classifyOutputFileNames (emittedFileNames : List String) : OutputClassification :=
  let codeFile := emittedFileNames.find? isCodeOutputFile
  let mapFile := emittedFileNames.find? isMapOutputFile
  { codeFile := codeFile
    mapFile := mapFile
    declarations := emittedFileNames.filter
      (fun name => codeFile ≠ some name && mapFile ≠ some name) }

/-- From `src/outputFile.ts` (and `src/createFilter` helpers): `normalizePath`
splits on the Windows separator and joins with the POSIX one
(`fileName.split(path.win32.sep).join(path.posix.sep)`); since the separator
is the single character `\`, this equals replacing each `\` by `/`. -/
def normalizePath (fileName : String) : String :=
  ⟨fileName.data.map (fun c => if c = '\\' then '/' else c)⟩

/-- From `src/outputFile.ts`, `getEmittedFile`: if a file name is given, look
it up in the emitted-files map first (`emittedFiles.has` / `emittedFiles.get`)
and fall back to the persistent cache (`tsCache.getCached`) only when the map
has no entry; with no file name the result is `undefined`. -/
def getEmittedFile (fileName : Option String)
    (emittedFiles : String → Option String)
    (tsCache : String → Option String) : Option String :=
  match fileName with
  | some fn =>
    match emittedFiles fn with
    | some code => some code
    | none => tsCache fn
  | none => none

/-- The result object of the plugin's `onLoad` callback (`src/index.ts`):
`contents` plus the error and warning messages copied from the pending
queues. Messages are modelled as strings. -/
structure LoadResult where
  contents : String
  errors : List String
  warnings : List String
deriving DecidableEq

/-- The outcome of one `onLoad` delivery step: the value returned to the host
and the state of the two diagnostic queues after the call. -/
structure LoadOutcome where
  result : Option LoadResult
  errorsAfter : List String
  warningsAfter : List String
deriving DecidableEq

/-- From `src/index.ts`, `onLoad` lines 129-136: build the result from the
resolved code slot (`output.code != null ? {contents, errors: errors.slice(),
warnings: warnings.slice()} : undefined`), then clear both queues
(`errors.length = 0; warnings.length = 0`) unconditionally, and return the
result. -/
def onLoadDeliver (code : Option String) (errors warnings : List String) :
    LoadOutcome :=
  let result := match code with
    | some c => some { contents := c, errors := errors, warnings := warnings }
    | none => none
  { result := result, errorsAfter := [], warningsAfter := [] }

/-- From `src/index.ts`, `onLoad` lines 121-125: normalize the loaded path and
append it to `parsedOptions.fileNames` when it is not already present
(`if (!parsedOptions.fileNames.includes(fileName)) fileNames.push(fileName)`). -/
def addFileName (fileNames : List String) (path : String) : List String :=
  let fileName := normalizePath path
  if fileNames.contains fileName then fileNames else fileNames ++ [fileName]

/-- The TypeScript compiler options the modelled code inspects
(`parsedOptions.options` in `src/index.ts`). -/
structure CompilerOptions where
  sourceMap : Bool
  inlineSources : Bool
  inlineSourceMap : Bool
  composite : Bool
  incremental : Bool
deriving DecidableEq

/-- From `src/index.ts`, lines 46-50 of the plugin factory: when the parsed
options request `sourceMap`, rewrite them before compilation starts —
`sourceMap` becomes `false` while `inlineSources` and `inlineSourceMap`
become `true`; otherwise the options are left unchanged. -/
def adjustSourceMapOptions (o : CompilerOptions) : CompilerOptions :=
  if o.sourceMap then
    { o with sourceMap := false, inlineSources := true, inlineSourceMap := true }
  else o

/-- The state the `writeFile` hook mutates (`src/index.ts`): the in-memory
`emittedFiles` map and the persistent cache, the latter modelled as the log of
`tsCache.cacheCode(fileName, data)` calls (the class `TSCache` itself is an
external collaborator). -/
structure EmitState where
  emittedFiles : String → Option String
  cacheLog : List (String × String)

/-- From `src/index.ts`, `writeFile` hook (lines 93-98): persist to the cache
(`tsCache.cacheCode`) when the active options have `composite` or
`incremental` set, and store the content in `emittedFiles` under the file
name (`emittedFiles.set(fileName, data)`). -/
def writeFile (opts : CompilerOptions) (s : EmitState)
    (fileName data : String) : EmitState :=
  { emittedFiles := fun k => if k = fileName then some data else s.emittedFiles k
    cacheLog :=
      if opts.composite || opts.incremental then s.cacheLog ++ [(fileName, data)]
      else s.cacheLog }

/-- From `src/index.ts`, `onEnd` lines 140-142: the suffix rewrite
`fileName.replace(/\.d\.ts$/, '.ts')` applied to a declaration name before it
is tested against the inclusion filter. -/
def declarationToSource (fileName : String) : String :=
  if endsWithStr fileName ".d.ts" then fileName.dropRight 5 ++ ".ts" else fileName

/-- From `src/index.ts`, `onEnd` lines 140-142: the end-of-build enumeration
over the keys of `emittedFiles` —
`keys.filter(fileName => (isDeclarationOutputFile(fileName) &&
filter(fileName.replace(/\.d\.ts$/, '.ts'))) ||
isTypeScriptMapOutputFile(fileName))`. -/
def declarationAndTypeScriptMapFiles (emittedKeys : List String)
    (filter : String → Bool) : List String :=
  emittedKeys.filter (fun fileName =>
    (isDeclarationOutputFile fileName && filter (declarationToSource fileName))
      || isTypeScriptMapOutputFile fileName)

/-- What one `onStart` invocation did: constructed the watch program
(`createWatchProgram`) or woke the existing one
(`watchProgramHelper.watch()`). -/
inductive StartAction where
  | created
  | woke
deriving DecidableEq

/-- The session state observed by the plugin's `onStart` hook
(`src/index.ts`): the `program` variable (`Watch<unknown> | null`, here the
id of the created instance), together with counters instrumenting how many
instances were ever created and how many wake signals were sent. -/
structure SessionState where
  program : Option Nat
  nextId : Nat
  createdCount : Nat
  wakeCount : Nat
deriving DecidableEq

/-- From `src/index.ts`, `onStart` lines 88-107: `if (!program) program =
createWatchProgram(...)` else `watchProgramHelper.watch()`. The `program`
variable is never reset, so the branch is taken on emptiness alone. -/
def onStart (s : SessionState) : SessionState × StartAction :=
  match s.program with
  | none =>
    ({ program := some s.nextId, nextId := s.nextId + 1,
       createdCount := s.createdCount + 1, wakeCount := s.wakeCount },
     StartAction.created)
  | some _ => ({ s with wakeCount := s.wakeCount + 1 }, StartAction.woke)

/-- The session state before the first build: `let program = null`. -/
def initialSession : SessionState :=
  { program := none, nextId := 0, createdCount := 0, wakeCount := 0 }

/-- Iterate `onStart` — the host calls it on every build start. -/
def runStarts : SessionState → Nat → SessionState
  | s, 0 => s
  | s, n + 1 => runStarts (onStart s).1 n

/-- Modelled from the spec: `watchProgram.ts` (the `WatchProgramHelper`
coordinator) is not among the provided sources, so its behaviour is taken
from the specification: a two-state machine (Idle / Compiling) with a FIFO
queue of suspended load requests; a start signal begins a new compile pass,
a settled status releases every queued waiter with the artifacts of the pass
that just completed, and a load that arrives while Idle resolves at once. -/
inductive CoordEvent where
  | startPass
  | settle
  | beginLoad (id : Nat)
deriving DecidableEq

/-- Modelled from the spec: the coordinator state — whether a pass is in
flight, the generation number of the current (or most recent) pass, the FIFO
queue of pending load-request ids, and the log of resolved requests, each
paired with the generation of the pass whose artifacts it observed. -/
structure CoordState where
  compiling : Bool
  gen : Nat
  queue : List Nat
  resolved : List (Nat × Nat)
deriving DecidableEq

/-- Modelled from the spec: one coordinator step. A start signal (or a wake's
explicit `markCompiling`) moves Idle to Compiling and begins the next pass; a
repeated compiling status while already mid-pass changes nothing. A settled
status moves to Idle and drains the queue in arrival order, resolving every
waiter with the current generation. A load beginning while Compiling is
enqueued; one beginning while Idle resolves immediately with the most recent
generation. -/
def coordStep (s : CoordState) (e : CoordEvent) : CoordState :=
  match e with
  | CoordEvent.startPass =>
    if s.compiling then s else { s with compiling := true, gen := s.gen + 1 }
  | CoordEvent.settle =>
    { s with compiling := false, queue := [],
             resolved := s.resolved ++ s.queue.map (fun id => (id, s.gen)) }
  | CoordEvent.beginLoad id =>
    if s.compiling then { s with queue := s.queue ++ [id] }
    else { s with resolved := s.resolved ++ [(id, s.gen)] }

/-- Modelled from the spec: run the coordinator over a list of events. -/
def coordRun (s : CoordState) (evs : List CoordEvent) : CoordState :=
  evs.foldl coordStep s

/-- Invariant for a load request `id` that began during the pass of
generation `G`: every resolution of `id` recorded so far observed `G`, and
while `id` is still queued the coordinator is mid-pass on generation `G`. -/
def LoadInv (id G : Nat) (t : CoordState) : Prop :=
  (∀ g, (id, g) ∈ t.resolved → g = G) ∧
  (id ∈ t.queue → t.compiling = true ∧ t.gen = G)

/-- Invariant for a load request `id` that is suspended and not yet
resolved: it is queued and no resolution of it has been recorded. -/
def LoadPending (id : Nat) (t : CoordState) : Prop :=
  id ∈ t.queue ∧ ∀ g, (id, g) ∉ t.resolved

end ESBPluginTS

open ESBPluginTS

/-- Claim C10: whenever the parsed options have `sourceMap` enabled the
factory rewrites them — `sourceMap` becomes `false` while `inlineSources`
and `inlineSourceMap` become `true` — and in every case the options the
watch compiler runs with have `sourceMap = false`, so no standalone `.map`
emission is requested. -/
theorem adjustSourceMapOptions_spec (o : CompilerOptions)
    (h : o.sourceMap = true) :
    (adjustSourceMapOptions o).sourceMap = false ∧
    (adjustSourceMapOptions o).inlineSources = true ∧
    (adjustSourceMapOptions o).inlineSourceMap = true ∧
    ∀ p : CompilerOptions, (adjustSourceMapOptions p).sourceMap = false := by
  refine ⟨?_, ?_, ?_, ?_⟩
  · simp [adjustSourceMapOptions, h]
  · simp [adjustSourceMapOptions, h]
  · simp [adjustSourceMapOptions, h]
  · intro p
    by_cases hp : p.sourceMap = true
    · simp [adjustSourceMapOptions, hp]
    · simp only [Bool.not_eq_true] at hp
      simp [adjustSourceMapOptions, hp]

/-- Witness for `adjustSourceMapOptions_spec` at a concrete option record
with `sourceMap` enabled. -/
theorem adjustSourceMapOptions_spec_holds :
    (adjustSourceMapOptions ⟨true, false, false, false, false⟩).sourceMap = false ∧
    (adjustSourceMapOptions ⟨true, false, false, false, false⟩).inlineSources = true ∧
    (adjustSourceMapOptions ⟨true, false, false, false, false⟩).inlineSourceMap = true ∧
    ∀ p : CompilerOptions, (adjustSourceMapOptions p).sourceMap = false :=
  adjustSourceMapOptions_spec ⟨true, false, false, false, false⟩ rfl

/-- Claim C5: every `writeFile` invocation stores the content in the
in-memory artifact store under the given file name, and appends it to the
persistent cache exactly when the active options have `composite` or
`incremental` enabled. -/
theorem writeFile_spec (opts : CompilerOptions) (s : EmitState)
    (fileName data : String) :
    (writeFile opts s fileName data).emittedFiles fileName = some data ∧
    ((writeFile opts s fileName data).cacheLog =
        s.cacheLog ++ [(fileName, data)] ↔
      (opts.composite = true ∨ opts.incremental = true)) := by
  constructor
  · simp [writeFile]
  · by_cases h : (opts.composite || opts.incremental) = true
    · rw [Bool.or_eq_true] at h
      simp [writeFile, Bool.or_eq_true, h]
    · rw [Bool.or_eq_true] at h
      push_neg at h
      simp only [Bool.not_eq_true] at h
      simp [writeFile, h.1, h.2]

/-- Claim C6: content resolution consults the in-memory emitted-files map
first, falls back to the persistent cache only when the map has no entry,
yields `undefined` when the path itself is `undefined`, and an `onLoad` call
whose resolved code slot is `undefined` returns no result. -/
theorem getEmittedFile_spec (fn : String)
    (emittedFiles tsCache : String → Option String) :
    (∀ c, emittedFiles fn = some c →
      getEmittedFile (some fn) emittedFiles tsCache = some c) ∧
    (emittedFiles fn = none →
      getEmittedFile (some fn) emittedFiles tsCache = tsCache fn) ∧
    getEmittedFile none emittedFiles tsCache = none ∧
    (∀ errors warnings, (onLoadDeliver none errors warnings).result = none) := by
  refine ⟨?_, ?_, rfl, fun _ _ => rfl⟩
  · intro c hc
    simp [getEmittedFile, hc]
  · intro h
    simp [getEmittedFile, h]

/-- Claim C1 counterexample: a compile pass recorded the error message
`"TS2322"`, the load's resolved code slot is absent, so `onLoad` returns no
result — yet the error queue is cleared, discarding the pending diagnostic
without it ever being attached to a resolved load. -/
theorem onLoad_discards_diagnostics :
    (onLoadDeliver none ["TS2322"] []).result = none ∧
    (onLoadDeliver none ["TS2322"] []).errorsAfter = [] :=
  ⟨rfl, rfl⟩

/-- Claim C1 (amended): for every `onLoad` call the error and warning queues
are cleared unconditionally after the result is computed; when the resolved
code is present the accumulated messages are attached to the returned
result, but when it is absent the call returns no result and the pending
diagnostics are discarded without being attached to any load. -/
theorem onLoadDeliver_spec (code : Option String)
    (errors warnings : List String) :
    (∀ c, code = some c → (onLoadDeliver code errors warnings).result =
      some { contents := c, errors := errors, warnings := warnings }) ∧
    (code = none → (onLoadDeliver code errors warnings).result = none) ∧
    (onLoadDeliver code errors warnings).errorsAfter = [] ∧
    (onLoadDeliver code errors warnings).warningsAfter = [] := by
  refine ⟨?_, ?_, rfl, rfl⟩
  · intro c hc
    simp [onLoadDeliver, hc]
  · intro hc
    simp [onLoadDeliver, hc]

/-- Claim C7: after `onLoad` the normalized path is present in the file
list; when it was absent it is appended exactly once; repeated loads of the
same path change nothing further; and the old list is a prefix of the new
one, so the list never shrinks across `onLoad` calls. -/
theorem addFileName_spec (fileNames : List String) (p : String) :
    normalizePath p ∈ addFileName fileNames p ∧
    (normalizePath p ∉ fileNames →
      (addFileName fileNames p).count (normalizePath p) = 1) ∧
    addFileName (addFileName fileNames p) p = addFileName fileNames p ∧
    fileNames <+: addFileName fileNames p := by
  by_cases h : fileNames.contains (normalizePath p) = true
  · have hmem : normalizePath p ∈ fileNames := by simpa using h
    refine ⟨?_, ?_, ?_, ?_⟩
    · simp [addFileName, hmem]
    · intro habs
      exact absurd hmem habs
    · simp [addFileName, hmem]
    · simp [addFileName, hmem]
  · have hmem : normalizePath p ∉ fileNames := by simpa using h
    refine ⟨?_, ?_, ?_, ?_⟩
    · simp [addFileName, hmem]
    · intro _
      simp [addFileName, hmem, List.count_eq_zero.mpr hmem]
    · simp [addFileName, hmem]
    · simp [addFileName, hmem, List.prefix_append]

/-- Claim C3 counterexample: the emitted file `"b.ts.map"` is a TypeScript
map output whose originating input fails the inclusion predicate (here the
constantly-false filter), yet the end-of-build enumeration contains it: map
outputs are enumerated without consulting the filter. -/
theorem tsMap_enumerated_despite_filter :
    declarationAndTypeScriptMapFiles ["b.ts.map"] (fun _ => false) =
      ["b.ts.map"] := by
  decide

/-- Claim C3 (amended): the end-of-build enumeration contains exactly the
emitted file names that are declarations whose corresponding source name
(`.d.ts` rewritten to `.ts`) passes the host's inclusion predicate, or are
TypeScript map outputs — the latter enumerated unconditionally, without
consulting the filter. -/
theorem declarationAndTypeScriptMapFiles_mem (emittedKeys : List String)
    (filter : String → Bool) (name : String) :
    name ∈ declarationAndTypeScriptMapFiles emittedKeys filter ↔
      name ∈ emittedKeys ∧
        ((isDeclarationOutputFile name = true ∧
            filter (declarationToSource name) = true) ∨
          isTypeScriptMapOutputFile name = true) := by
  simp [declarationAndTypeScriptMapFiles, List.mem_filter]

/-- Claim C8: given the candidate output name list
`["a.js", "a.js.map", "a.d.ts", "a.d.ts.map"]`, the output resolver
classifies code = `a.js`, map = `a.js.map`, and
declarations = `["a.d.ts", "a.d.ts.map"]`. -/
theorem classify_example_list :
    classifyOutputFileNames ["a.js", "a.js.map", "a.d.ts", "a.d.ts.map"] =
      { codeFile := some "a.js"
        mapFile := some "a.js.map"
        declarations := ["a.d.ts", "a.d.ts.map"] } := by
  decide

/-- Suffix tests compose: a string ending in `t` also ends in every suffix
of `t`. -/
theorem endsWithStr_trans (s t u : String) (h1 : endsWithStr s t = true)
    (h2 : endsWithStr t u = true) : endsWithStr s u = true := by
  rw [endsWithStr, List.isSuffixOf_iff_suffix] at h1 h2 ⊢
  exact h2.trans h1

/-- Claim C2 counterexample: on the candidate list `["a.d.ts.map", "a.js"]`
the declaration map `"a.d.ts.map"` is selected as the primary map slot and
is not classified into the declarations group — the primary map is simply
the first name ending in `.map`, whatever kind of map it is. -/
theorem declarationMap_as_primary_map :
    (classifyOutputFileNames ["a.d.ts.map", "a.js"]).mapFile =
      some "a.d.ts.map" ∧
    "a.d.ts.map" ∉ (classifyOutputFileNames ["a.d.ts.map", "a.js"]).declarations := by
  decide

/-- Claim C2 (amended): a declaration map (a name ending in `.d.ts.map`) is
classified into the declarations group and is not selected as the primary
map slot provided it is not the first map-suffixed name of the candidate
list; when it is the first such name it becomes the primary map. -/
theorem classify_declarationMap (names : List String) (d m : String)
    (hdm : endsWithStr d ".d.ts.map" = true)
    (hd : d ∈ names)
    (hm : names.find? isMapOutputFile = some m)
    (hne : m ≠ d) :
    (classifyOutputFileNames names).mapFile ≠ some d ∧
    d ∈ (classifyOutputFileNames names).declarations := by
  have hmap : isMapOutputFile d = true :=
    endsWithStr_trans d ".d.ts.map" ".map" hdm (by decide)
  have hcode : ∀ c, names.find? isCodeOutputFile = some c → c ≠ d := by
    intro c hc he
    have := List.find?_some hc
    rw [he] at this
    simp [isCodeOutputFile, hmap] at this
  constructor
  · simp only [classifyOutputFileNames, hm]
    intro he
    exact hne (by simpa using he)
  · simp only [classifyOutputFileNames, hm, List.mem_filter]
    refine ⟨hd, ?_⟩
    simp only [Bool.and_eq_true, decide_eq_true_eq]
    constructor
    · cases hfind : names.find? isCodeOutputFile with
      | none => simp [hfind]
      | some c =>
        simp only [hfind, ne_eq, Option.some.injEq]
        exact hcode c hfind
    · intro he
      exact hne (by simpa using he)

/-- Witness for `classify_declarationMap` on the standard candidate list:
the declaration map `"a.d.ts.map"` follows the JavaScript map `"a.js.map"`,
so it lands in the declarations group and not in the primary map slot. -/
theorem classify_declarationMap_holds :
    (classifyOutputFileNames ["a.js", "a.js.map", "a.d.ts", "a.d.ts.map"]).mapFile ≠
      some "a.d.ts.map" ∧
    "a.d.ts.map" ∈
      (classifyOutputFileNames ["a.js", "a.js.map", "a.d.ts", "a.d.ts.map"]).declarations :=
  classify_declarationMap ["a.js", "a.js.map", "a.d.ts", "a.d.ts.map"]
    "a.d.ts.map" "a.js.map" (by decide) (by decide) (by decide) (by decide)

/-- If the watch program already exists, running any number of further
starts neither replaces it nor creates another instance. -/
theorem runStarts_stable (n : Nat) : ∀ (s : SessionState) (p : Nat),
    s.program = some p →
    (runStarts s n).program = some p ∧
    (runStarts s n).createdCount = s.createdCount := by
  induction n with
  | zero => exact fun s p h => ⟨h, rfl⟩
  | succ n ih =>
    intro s p h
    have hstep : (onStart s).1.program = some p ∧
        (onStart s).1.createdCount = s.createdCount := by
      simp [onStart, h]
    have := ih (onStart s).1 p hstep.1
    exact ⟨this.1, hstep.2 ▸ this.2⟩

/-- Claim C9: `onStart` constructs a watch-program instance only when none
exists and otherwise wakes the existing one; starting from the initial
session, at most one instance is ever created however many times the host
signals a build start, and after the first start the same instance persists. -/
theorem onStart_single_instance :
    (∀ s : SessionState, s.program = none →
      (onStart s).2 = StartAction.created ∧
      (onStart s).1.program = some s.nextId ∧
      (onStart s).1.createdCount = s.createdCount + 1) ∧
    (∀ (s : SessionState) (p : Nat), s.program = some p →
      (onStart s).2 = StartAction.woke ∧
      (onStart s).1.program = some p ∧
      (onStart s).1.createdCount = s.createdCount ∧
      (onStart s).1.wakeCount = s.wakeCount + 1) ∧
    (∀ n, (runStarts initialSession n).createdCount ≤ 1) ∧
    (∀ n, 1 ≤ n → (runStarts initialSession n).program = some 0 ∧
      (runStarts initialSession n).createdCount = 1) := by
  have hfirst : (onStart initialSession).1.program = some 0 ∧
      (onStart initialSession).1.createdCount = 1 := by
    simp [onStart, initialSession]
  refine ⟨?_, ?_, ?_, ?_⟩
  · intro s h
    refine ⟨?_, ?_, ?_⟩ <;> simp [onStart, h]
  · intro s p h
    refine ⟨?_, ?_, ?_, ?_⟩ <;> simp [onStart, h]
  · intro n
    cases n with
    | zero => simp [runStarts, initialSession]
    | succ m =>
      have := runStarts_stable m (onStart initialSession).1 0 hfirst.1
      calc (runStarts initialSession (m + 1)).createdCount
          = (runStarts (onStart initialSession).1 m).createdCount := rfl
        _ = 1 := by rw [this.2, hfirst.2]
        _ ≤ 1 := le_refl 1
  · intro n hn
    cases n with
    | zero => exact absurd hn (by decide)
    | succ m =>
      have := runStarts_stable m (onStart initialSession).1 0 hfirst.1
      exact ⟨this.1, by rw [show runStarts initialSession (m + 1) =
        runStarts (onStart initialSession).1 m from rfl, this.2, hfirst.2]⟩

/-- One coordinator step other than a second begin of the same load
preserves `LoadInv`. -/
theorem coordStep_LoadInv (id G : Nat) (t : CoordState) (e : CoordEvent)
    (hne : e ≠ CoordEvent.beginLoad id) (h : LoadInv id G t) :
    LoadInv id G (coordStep t e) := by
  obtain ⟨hres, hq⟩ := h
  cases e with
  | startPass =>
    by_cases hc : t.compiling = true
    · have ht : coordStep t CoordEvent.startPass = t := by
        simp [coordStep, hc]
      rw [ht]
      exact ⟨hres, hq⟩
    · have ht : coordStep t CoordEvent.startPass =
          { t with compiling := true, gen := t.gen + 1 } := by
        simp [coordStep, hc]
      rw [ht]
      exact ⟨fun g hg => hres g hg, fun hmem => absurd (hq hmem).1 hc⟩
  | settle =>
    have ht : coordStep t CoordEvent.settle =
        { t with compiling := false, queue := [],
                 resolved := t.resolved ++ t.queue.map (fun i => (i, t.gen)) } := rfl
    rw [ht]
    refine ⟨?_, ?_⟩
    · intro g hg
      rcases List.mem_append.mp hg with hg | hg
      · exact hres g hg
      · obtain ⟨a, ha, hag⟩ := List.mem_map.mp hg
        have ha1 : a = id := congrArg Prod.fst hag
        have ha2 : t.gen = g := congrArg Prod.snd hag
        subst ha1
        rw [← ha2]
        exact (hq ha).2
    · intro hmem
      simp at hmem
  | beginLoad j =>
    have hj : j ≠ id := fun hji => hne (by rw [hji])
    by_cases hc : t.compiling = true
    · have ht : coordStep t (CoordEvent.beginLoad j) =
          { t with queue := t.queue ++ [j] } := by
        simp [coordStep, hc]
      rw [ht]
      refine ⟨fun g hg => hres g hg, ?_⟩
      intro hmem
      rcases List.mem_append.mp hmem with hmem | hmem
      · exact hq hmem
      · exact absurd (List.mem_singleton.mp hmem).symm hj
    · have ht : coordStep t (CoordEvent.beginLoad j) =
          { t with resolved := t.resolved ++ [(j, t.gen)] } := by
        simp only [Bool.not_eq_true] at hc
        simp [coordStep, hc]
      rw [ht]
      refine ⟨?_, fun hmem => hq hmem⟩
      intro g hg
      rcases List.mem_append.mp hg with hg | hg
      · exact hres g hg
      · have hpair : (id, g) = (j, t.gen) := List.mem_singleton.mp hg
        exact absurd (congrArg Prod.fst hpair) (fun hid => hj hid.symm)

/-- Running the coordinator over any events that do not begin the same load
again preserves `LoadInv`. -/
theorem coordRun_LoadInv (id G : Nat) (evs : List CoordEvent) :
    ∀ t : CoordState, CoordEvent.beginLoad id ∉ evs → LoadInv id G t →
      LoadInv id G (coordRun t evs) := by
  induction evs with
  | nil => exact fun t _ h => h
  | cons e rest ih =>
    intro t hnotin h
    have hne : e ≠ CoordEvent.beginLoad id := by
      intro he
      exact hnotin (he ▸ List.mem_cons_self e rest)
    have hrest : CoordEvent.beginLoad id ∉ rest :=
      fun hm => hnotin (List.mem_cons_of_mem e hm)
    exact ih (coordStep t e) hrest (coordStep_LoadInv id G t e hne h)

/-- A coordinator step that is neither a settle nor a second begin of the
same load keeps a pending load suspended and unresolved. -/
theorem coordStep_LoadPending (id : Nat) (t : CoordState) (e : CoordEvent)
    (hset : e ≠ CoordEvent.settle) (hne : e ≠ CoordEvent.beginLoad id)
    (h : LoadPending id t) : LoadPending id (coordStep t e) := by
  obtain ⟨hqueue, hres⟩ := h
  cases e with
  | startPass =>
    by_cases hc : t.compiling = true
    · have ht : coordStep t CoordEvent.startPass = t := by
        simp [coordStep, hc]
      rw [ht]
      exact ⟨hqueue, hres⟩
    · have ht : coordStep t CoordEvent.startPass =
          { t with compiling := true, gen := t.gen + 1 } := by
        simp [coordStep, hc]
      rw [ht]
      exact ⟨hqueue, hres⟩
  | settle => exact absurd rfl hset
  | beginLoad j =>
    have hj : j ≠ id := fun hji => hne (by rw [hji])
    by_cases hc : t.compiling = true
    · have ht : coordStep t (CoordEvent.beginLoad j) =
          { t with queue := t.queue ++ [j] } := by
        simp [coordStep, hc]
      rw [ht]
      exact ⟨List.mem_append.mpr (Or.inl hqueue), hres⟩
    · have ht : coordStep t (CoordEvent.beginLoad j) =
          { t with resolved := t.resolved ++ [(j, t.gen)] } := by
        simp only [Bool.not_eq_true] at hc
        simp [coordStep, hc]
      rw [ht]
      refine ⟨hqueue, ?_⟩
      intro g hg
      rcases List.mem_append.mp hg with hg | hg
      · exact hres g hg
      · have hpair : (id, g) = (j, t.gen) := List.mem_singleton.mp hg
        exact absurd (congrArg Prod.fst hpair) (fun hid => hj hid.symm)

/-- Running the coordinator over events containing no settle and no second
begin of the same load keeps a pending load suspended and unresolved. -/
theorem coordRun_LoadPending (id : Nat) (evs : List CoordEvent) :
    ∀ t : CoordState, CoordEvent.settle ∉ evs →
      CoordEvent.beginLoad id ∉ evs → LoadPending id t →
      LoadPending id (coordRun t evs) := by
  induction evs with
  | nil => exact fun t _ _ h => h
  | cons e rest ih =>
    intro t hset hnotin h
    have hse : e ≠ CoordEvent.settle := by
      intro he
      exact hset (he ▸ List.mem_cons_self e rest)
    have hne : e ≠ CoordEvent.beginLoad id := by
      intro he
      exact hnotin (he ▸ List.mem_cons_self e rest)
    exact ih (coordStep t e) (fun hm => hset (List.mem_cons_of_mem e hm))
      (fun hm => hnotin (List.mem_cons_of_mem e hm))
      (coordStep_LoadPending id t e hse hne h)

/-- Claim C4: a file-load request that begins while the coordinator is
Compiling is enqueued, stays unresolved through every subsequent event until
the transition to Idle (a settle), and whenever it resolves it observes the
generation of the pass that was in flight when it began waiting — never a
pass that started after the load began. -/
theorem load_during_compiling_waits (s : CoordState) (id : Nat)
    (evs : List CoordEvent) (hc : s.compiling = true)
    (hr : ∀ g, (id, g) ∉ s.resolved)
    (hev : CoordEvent.beginLoad id ∉ evs) :
    id ∈ (coordStep s (CoordEvent.beginLoad id)).queue ∧
    (∀ g, (id, g) ∉ (coordStep s (CoordEvent.beginLoad id)).resolved) ∧
    (∀ pre, pre <+: evs → CoordEvent.settle ∉ pre →
      ∀ g, (id, g) ∉ (coordRun (coordStep s (CoordEvent.beginLoad id)) pre).resolved) ∧
    (∀ pre g, pre <+: evs →
      (id, g) ∈ (coordRun (coordStep s (CoordEvent.beginLoad id)) pre).resolved →
      g = s.gen) := by
  have ht : coordStep s (CoordEvent.beginLoad id) =
      { s with queue := s.queue ++ [id] } := by
    simp [coordStep, hc]
  have hpend : LoadPending id (coordStep s (CoordEvent.beginLoad id)) := by
    rw [ht]
    exact ⟨List.mem_append.mpr (Or.inr (List.mem_singleton.mpr rfl)), hr⟩
  have hinv : LoadInv id s.gen (coordStep s (CoordEvent.beginLoad id)) := by
    rw [ht]
    exact ⟨fun g hg => absurd hg (hr g), fun _ => ⟨hc, rfl⟩⟩
  refine ⟨hpend.1, hpend.2, ?_, ?_⟩
  · intro pre hpre hnos g
    have hnob : CoordEvent.beginLoad id ∉ pre := fun hm => hev (hpre.sublist.mem hm)
    exact (coordRun_LoadPending id pre _ hnos hnob hpend).2 g
  · intro pre g hpre hg
    have hnob : CoordEvent.beginLoad id ∉ pre := fun hm => hev (hpre.sublist.mem hm)
    exact (coordRun_LoadInv id s.gen pre _ hnob hinv).1 g hg

/-- Witness for `load_during_compiling_waits`: load `7` begins while pass
`5` is compiling and the following events are a single settle; the load is
queued, unresolved before the settle, and any resolution observes
generation `5`. -/
theorem load_during_compiling_waits_holds :
    7 ∈ (coordStep ⟨true, 5, [], []⟩ (CoordEvent.beginLoad 7)).queue ∧
    (∀ g, (7, g) ∉ (coordStep ⟨true, 5, [], []⟩ (CoordEvent.beginLoad 7)).resolved) ∧
    (∀ pre, pre <+: [CoordEvent.settle] → CoordEvent.settle ∉ pre →
      ∀ g, (7, g) ∉
        (coordRun (coordStep ⟨true, 5, [], []⟩ (CoordEvent.beginLoad 7)) pre).resolved) ∧
    (∀ pre g, pre <+: [CoordEvent.settle] →
      (7, g) ∈
        (coordRun (coordStep ⟨true, 5, [], []⟩ (CoordEvent.beginLoad 7)) pre).resolved →
      g = 5) :=
  load_during_compiling_waits ⟨true, 5, [], []⟩ 7 [CoordEvent.settle] rfl
    (by simp) (by simp)
